import Mathlib

/-!
# filteroption: a verification development

Shallow embedding of the Go package `filteroption` (file `filteroption.go`)
and theorems about its operations.

Conventions of the embedding:

* Go `int` is the 64-bit signed integer of a 64-bit platform. Its values are
  modelled by `Int`; the arithmetic the code does on them wraps around, which
  `wrapInt` models, so overflow is visible in the embedding.
* A Go `string` is an arbitrary sequence of bytes, modelled by `List (Fin 256)`.
  The conversions `[]rune(s)` and `string(runes)` are modelled after the Go
  runtime (`decoderune`, `encoderune`), including the replacement of invalid
  UTF-8 by U+FFFD.
* A method with a pointer receiver that mutates the receiver is a function
  returning the new receiver value.
* The package-level variable `DefaultPageSize` is passed to `ApplyDefaults`
  as an explicit argument holding its current value.
* `sort.Slice` belongs to the Go standard library; `SortSlice` takes it as an
  argument, and `SortsSlices` states the documented behaviour assumed of it.
  Go's own insertion sort is shown to have that behaviour.
-/

namespace filteroption

/-! ## Go strings and runes -/

/-- One byte of a Go string. -/
abbrev Byte := Fin 256

/-- A Go string: an immutable sequence of bytes, not necessarily valid UTF-8. -/
abbrev GoString := List Byte

/-- The Unicode replacement character U+FFFD (`utf8.RuneError`). A Go rune is
modelled by a natural number: only the non-negative values produced by
decoding occur here. -/
def runeError : Nat := 0xFFFD

/-- The byte `locb <= b && b <= hicb` test of the Go runtime: a UTF-8
continuation byte `10xxxxxx`. -/
def isCont (b : Byte) : Bool := decide (0x80 ≤ b.val) && decide (b.val ≤ 0xBF)

/-- Go runtime `decoderune`, called on a string whose first byte is not ASCII.
Returns the decoded rune and the number of bytes consumed; an invalid or
truncated encoding yields `(runeError, 1)`. Masks and shifts of the runtime are
written with `%` and `*` (`b & 0x1F = b % 32`, `x << 6 = x * 64`, and the
or-ed parts occupy disjoint bits). -/
def decoderune : GoString → Nat × Nat
  | [] => (runeError, 1)
  | b0 :: rest =>
    if 0xC0 ≤ b0.val ∧ b0.val < 0xE0 then
      -- 0080-07FF two byte sequence
      match rest with
      | b1 :: _ =>
        if isCont b1 then
          let r := (b0.val % 32) * 64 + b1.val % 64
          if 0x7F < r then (r, 2) else (runeError, 1)
        else (runeError, 1)
      | _ => (runeError, 1)
    else if 0xE0 ≤ b0.val ∧ b0.val < 0xF0 then
      -- 0800-FFFF three byte sequence
      match rest with
      | b1 :: b2 :: _ =>
        if isCont b1 && isCont b2 then
          let r := (b0.val % 16) * 4096 + (b1.val % 64) * 64 + b2.val % 64
          if 0x7FF < r ∧ ¬ (0xD800 ≤ r ∧ r ≤ 0xDFFF) then (r, 3) else (runeError, 1)
        else (runeError, 1)
      | _ => (runeError, 1)
    else if 0xF0 ≤ b0.val ∧ b0.val < 0xF8 then
      -- 10000-1FFFFF four byte sequence
      match rest with
      | b1 :: b2 :: b3 :: _ =>
        if isCont b1 && isCont b2 && isCont b3 then
          let r := (b0.val % 8) * 262144 + (b1.val % 64) * 4096 + (b2.val % 64) * 64
            + b3.val % 64
          if 0xFFFF < r ∧ r ≤ 0x10FFFF then (r, 4) else (runeError, 1)
        else (runeError, 1)
      | _ => (runeError, 1)
    else (runeError, 1)

/-- The loop of `[]rune(s)` (Go runtime `stringtoslicerune`, a `range` over the
string): `skip` counts the bytes of the current encoding still to be stepped
over. A byte below `0x80` is a rune by itself, anything else goes through
`decoderune`. -/
def stringtosliceruneAux : Nat → GoString → List Nat
  | _, [] => []
  | skip + 1, _ :: rest => stringtosliceruneAux skip rest
  | 0, b0 :: rest =>
    if b0.val < 0x80 then b0.val :: stringtosliceruneAux 0 rest
    else (decoderune (b0 :: rest)).1 :: stringtosliceruneAux ((decoderune (b0 :: rest)).2 - 1) rest

/-- The conversion `[]rune(s)`. -/
def stringtoslicerune (s : GoString) : List Nat := stringtosliceruneAux 0 s

/-- Go runtime `encoderune`: the UTF-8 encoding of a rune; surrogates and
values above U+10FFFF are encoded as U+FFFD. -/
def encoderune (r : Nat) : GoString :=
  if r ≤ 0x7F then [Fin.ofNat r]
  else if r ≤ 0x7FF then [Fin.ofNat (0xC0 + r / 64), Fin.ofNat (0x80 + r % 64)]
  else if 0x10FFFF < r ∨ (0xD800 ≤ r ∧ r ≤ 0xDFFF) then [0xEF, 0xBF, 0xBD]
  else if r ≤ 0xFFFF then
    [Fin.ofNat (0xE0 + r / 4096), Fin.ofNat (0x80 + (r / 64) % 64), Fin.ofNat (0x80 + r % 64)]
  else
    [Fin.ofNat (0xF0 + r / 262144), Fin.ofNat (0x80 + (r / 4096) % 64),
      Fin.ofNat (0x80 + (r / 64) % 64), Fin.ofNat (0x80 + r % 64)]

/-- The conversion `string(runes)` (Go runtime `slicerunetostring`). -/
def slicerunetostring : List Nat → GoString
  | [] => []
  | r :: rs => encoderune r ++ slicerunetostring rs

/-- Whether a Go string is valid UTF-8 (what `utf8.ValidString` reports): no
step of the decoding loop ends in the error return of `decoderune`. -/
def validStringAux : Nat → GoString → Bool
  | _, [] => true
  | skip + 1, _ :: rest => validStringAux skip rest
  | 0, b0 :: rest =>
    if b0.val < 0x80 then validStringAux 0 rest
    else decide ((decoderune (b0 :: rest)).2 ≠ 1) &&
      validStringAux ((decoderune (b0 :: rest)).2 - 1) rest

/-- Validity of a whole string as UTF-8. -/
def validString (s : GoString) : Bool := validStringAux 0 s

/-- The successful outcomes of `decoderune`. -/
inductive Decoded : GoString → Nat → Nat → Prop
  | two (b0 b1 : Byte) (t : GoString) :
      0xC0 ≤ b0.val → b0.val < 0xE0 → 0x80 ≤ b1.val → b1.val ≤ 0xBF →
      0x7F < (b0.val % 32) * 64 + b1.val % 64 →
      Decoded (b0 :: b1 :: t) ((b0.val % 32) * 64 + b1.val % 64) 2
  | three (b0 b1 b2 : Byte) (t : GoString) :
      0xE0 ≤ b0.val → b0.val < 0xF0 → 0x80 ≤ b1.val → b1.val ≤ 0xBF →
      0x80 ≤ b2.val → b2.val ≤ 0xBF →
      0x7FF < (b0.val % 16) * 4096 + (b1.val % 64) * 64 + b2.val % 64 →
      ¬ (0xD800 ≤ (b0.val % 16) * 4096 + (b1.val % 64) * 64 + b2.val % 64 ∧
        (b0.val % 16) * 4096 + (b1.val % 64) * 64 + b2.val % 64 ≤ 0xDFFF) →
      Decoded (b0 :: b1 :: b2 :: t) ((b0.val % 16) * 4096 + (b1.val % 64) * 64 + b2.val % 64) 3
  | four (b0 b1 b2 b3 : Byte) (t : GoString) :
      0xF0 ≤ b0.val → b0.val < 0xF8 → 0x80 ≤ b1.val → b1.val ≤ 0xBF →
      0x80 ≤ b2.val → b2.val ≤ 0xBF → 0x80 ≤ b3.val → b3.val ≤ 0xBF →
      0xFFFF < (b0.val % 8) * 262144 + (b1.val % 64) * 4096 + (b2.val % 64) * 64 + b3.val % 64 →
      (b0.val % 8) * 262144 + (b1.val % 64) * 4096 + (b2.val % 64) * 64 + b3.val % 64 ≤ 0x10FFFF →
      Decoded (b0 :: b1 :: b2 :: b3 :: t)
        ((b0.val % 8) * 262144 + (b1.val % 64) * 4096 + (b2.val % 64) * 64 + b3.val % 64) 4

/-! ## Go integers -/

/-- The largest value of Go's `int` on a 64-bit platform (`math.MaxInt64`). -/
def maxInt : Int := 9223372036854775807

/-- The smallest value of Go's `int` on a 64-bit platform (`math.MinInt64`). -/
def minInt : Int := -9223372036854775808

/-- The integer is a value of Go's `int`. -/
def IsInt (x : Int) : Prop := minInt ≤ x ∧ x ≤ maxInt

/-- Membership in the range of `int` can be computed. -/
instance IsInt.decidable (x : Int) : Decidable (IsInt x) :=
  inferInstanceAs (Decidable (minInt ≤ x ∧ x ≤ maxInt))

/-- The result of an `int` operation whose mathematical result is `x`: Go
integer arithmetic wraps around silently (two's complement, 64 bits). -/
def wrapInt (x : Int) : Int :=
  (x + 9223372036854775808) % 18446744073709551616 - 9223372036854775808

/-! ## The data model -/

/-- The type `ShowDeletedRule`, a named string type. -/
abbrev ShowDeletedRule := GoString

/-- The constant `HideDeleted`, the empty string. -/
def HideDeleted : ShowDeletedRule := []

/-- The constant `ShowDeletedOnly`, the string "deleted". -/
def ShowDeletedOnly : ShowDeletedRule := [100, 101, 108, 101, 116, 101, 100]

/-- The constant `ShowAll`, the string "all". -/
def ShowAll : ShowDeletedRule := [97, 108, 108]

/-- Initial value of the package variable `DefaultPageSize`. -/
def DefaultPageSize : Int := 10

/-- The struct `FilterOption`; the last four fields are the unexported ones. -/
structure FilterOption where
  PageNumber : Int := 0
  PageSize : Int := 0
  SortBy : GoString := []
  Show : ShowDeletedRule := []
  Download : Bool := false
  Lang : GoString := []
  sortBy : GoString := []
  desc : Bool := false
  total : Int := 0
  ids : List Int := []
  deriving DecidableEq, Repr

/-! ## The operations -/

/-- Method `Add`: appends the id to the pre-resultset and counts it; the
counter is an `int`, so `total++` wraps around. -/
def Add (fo : FilterOption) (id : Int) : FilterOption :=
  { fo with ids := fo.ids ++ [id], total := wrapInt (fo.total + 1) }

/-- Method `IDs`. -/
def IDs (fo : FilterOption) : List Int := fo.ids

/-- Method `ApplyDefaults`; `defaultPageSize` is the value of the package
variable `DefaultPageSize` at the time of the call. -/
def ApplyDefaults (defaultPageSize : Int) (fo : FilterOption) : FilterOption :=
  let fo1 : FilterOption :=
    if fo.Download then { fo with PageNumber := 0, PageSize := 0 }
    else if fo.PageSize = 0 then { fo with PageSize := defaultPageSize }
    else fo
  let fo2 : FilterOption := { fo1 with sortBy := fo1.SortBy }
  if 0 < fo2.SortBy.length ∧ (stringtoslicerune fo2.SortBy).head? = some 0x2D then
    let stripped := slicerunetostring ((stringtoslicerune fo2.SortBy).drop 1)
    { fo2 with desc := true, sortBy := stripped, SortBy := stripped }
  else fo2

/-- Method `SetLang`. -/
def SetLang (fo : FilterOption) (lang : GoString) : FilterOption :=
  { fo with Lang := lang }

/-- Method `Len`. -/
def Len (fo : FilterOption) : Int := fo.ids.length

/-- Method `sliceRange`. The product, the difference and the sum are `int`
operations and wrap around. -/
def sliceRange (fo : FilterOption) (full : Int) : Int × Int :=
  if fo.PageSize ≤ 0 then (0, full)
  else
    let from0 := wrapInt (fo.PageNumber * fo.PageSize)
    let from1 := if from0 > full then wrapInt (full - from0) else from0
    let from2 := if from1 < 0 then 0 else from1
    let to0 := wrapInt (from2 + fo.PageSize)
    let to1 := if to0 > full then full else to0
    (from2, to1)

/-- Method `CalcRange`. -/
def CalcRange (fo : FilterOption) (length : Int) : Int × Int := sliceRange fo length

/-- Method `IsIgnoredRow`. -/
def IsIgnoredRow (fo : FilterOption) (rowDeletedFlag : Bool) : Bool :=
  if rowDeletedFlag = true ∧ fo.Show = HideDeleted then true
  else if rowDeletedFlag = false ∧ fo.Show = ShowDeletedOnly then true
  else false

/-- Method `IsSortRequired`. -/
def IsSortRequired (fo : FilterOption) : Bool := decide (fo.sortBy ≠ [])

/-- Method `SortAttr`. -/
def SortAttr (fo : FilterOption) : GoString := fo.sortBy

/-- Method `IsSortDesc`. -/
def IsSortDesc (fo : FilterOption) : Bool := fo.desc

/-! ## Operations as values -/

/-- The public operations on a FilterOption other than `SortSlice`, each with
its arguments. -/
inductive Op where
  | add (id : Int)
  | applyDefaults (defaultPageSize : Int)
  | setLang (lang : GoString)
  | len
  | ids
  | pageRange
  | calcRange (length : Int)
  | isIgnoredRow (rowDeletedFlag : Bool)
  | isSortRequired
  | sortAttr
  | isSortDesc
  deriving DecidableEq, Repr

/-- The receiver after an operation. `Add`, `ApplyDefaults` and `SetLang`
assign to fields of the receiver; the bodies of the other methods only read
it, so they leave it as it was. -/
def Op.after : Op → FilterOption → FilterOption
  | .add id, fo => Add fo id
  | .applyDefaults defaultPageSize, fo => ApplyDefaults defaultPageSize fo
  | .setLang lang, fo => SetLang fo lang
  | .len, fo => fo
  | .ids, fo => fo
  | .pageRange, fo => fo
  | .calcRange _, fo => fo
  | .isIgnoredRow _, fo => fo
  | .isSortRequired, fo => fo
  | .sortAttr, fo => fo
  | .isSortDesc, fo => fo

/-! ## Sorting -/

/-- The comparator argument of `sort.Slice`: a Go closure `func(i, j int) bool`
over the slice being sorted. It reads the current contents of the slice, which
are its first argument here. -/
abbrev LessFunc (α : Type) := List α → Nat → Nat → Bool

/-- The function `sort.Slice` of the Go standard library, which is not part of
this package: from the comparator and the contents of the slice to the contents
after the call. -/
abbrev SliceSorter (α : Type) := LessFunc α → List α → List α

/-- Method `SortSlice`; the library function `sort.Slice` it calls is the
first argument. -/
def SortSlice {α : Type} (sortSlice : SliceSorter α) (fo : FilterOption) (s : List α)
    (f : LessFunc α) : List α :=
  if fo.desc then sortSlice (fun cur i j => !(f cur i j)) s
  else sortSlice (fun cur i j => f cur i j) s

/-- The comparator `func(i, j int) bool { return s[i] < s[j] }` over a slice
of integers (the sort only calls it with indices inside the slice). -/
def intLess : LessFunc Int := fun cur i j => decide (cur.getD i 0 < cur.getD j 0)

/-- What the Go documentation requires of the comparator handed to `sort.Slice`
("Less must describe a transitive ordering"), on the elements of `xs`: the
outcome depends on the two elements compared only, through a relation `lt`
that is transitive and whose negation is transitive; two distinct elements are
not each before the other. -/
def LessRequirements {α : Type} (less : LessFunc α) (xs : List α) : Prop :=
  ∃ lt : α → α → Bool,
    (∀ (cur : List α) (i j : Nat) (hi : i < cur.length) (hj : j < cur.length),
      less cur i j = lt (cur.get ⟨i, hi⟩) (cur.get ⟨j, hj⟩)) ∧
    (∀ a b, a ∈ xs → b ∈ xs → a ≠ b → lt a b = true → lt b a = false) ∧
    (∀ a b c, a ∈ xs → b ∈ xs → c ∈ xs → lt a b = true → lt b c = true → lt a c = true) ∧
    (∀ a b c, a ∈ xs → b ∈ xs → c ∈ xs → lt a b = false → lt b c = false → lt a c = false)

/-- The documented behaviour of `sort.Slice`, as far as it is used here: on a
slice without repeated elements and a comparator meeting the requirements, the
slice ends as a rearrangement of its input in which no element must sort
before an earlier one. -/
def SortsSlices {α : Type} (sortSlice : SliceSorter α) : Prop :=
  ∀ (less : LessFunc α) (xs : List α), xs.Nodup → LessRequirements less xs →
    (sortSlice less xs).Perm xs ∧
    ∀ i j : Nat, i < j → j < (sortSlice less xs).length → less (sortSlice less xs) j i = false

/-- The swap function of `reflect.Swapper`: exchanges the elements at two
indices of the slice. -/
def swapAt {α : Type} (xs : List α) (i j : Nat) : List α :=
  match xs[i]?, xs[j]? with
  | some x, some y => (xs.set i y).set j x
  | _, _ => xs

/-- Inner loop of Go's `insertionSort_func(data, a, b)` for `a = 0`:
`for j := i; j > a && less(j, j-1); j-- { swap(j, j-1) }`. -/
def insertionInner {α : Type} (less : LessFunc α) : Nat → List α → List α
  | 0, xs => xs
  | j + 1, xs =>
    if less xs (j + 1) j then insertionInner less j (swapAt xs (j + 1) j) else xs

/-- Outer loop of `insertionSort_func`: `for i := a + 1; i < b; i++`, with `n`
iterations left. -/
def insertionOuter {α : Type} (less : LessFunc α) : Nat → Nat → List α → List α
  | _, 0, xs => xs
  | i, n + 1, xs => insertionOuter less (i + 1) n (insertionInner less i xs)

/-- The insertion sort `insertionSort_func(data, 0, len)` of Go's package sort,
the routine `sort.Slice` finishes short slices with. -/
def insertionSort_func {α : Type} (less : LessFunc α) (xs : List α) : List α :=
  insertionOuter less 1 (xs.length - 1) xs

/-! ## Decoding and encoding of runes -/

theorem decoderune_spec (s : GoString) :
    decoderune s = (runeError, 1) ∨ Decoded s (decoderune s).1 (decoderune s).2 := by
  rcases s with _ | ⟨b0, _ | ⟨b1, _ | ⟨b2, _ | ⟨b3, t⟩⟩⟩⟩
  · left; rfl
  · left; simp [decoderune]
  · simp only [decoderune, isCont]
    split_ifs <;> simp_all
    show Decoded _ _ 2
    apply Decoded.two <;> omega
  · simp only [decoderune, isCont]
    split_ifs <;> simp_all <;> first
      | (show Decoded _ _ 2; apply Decoded.two <;> omega)
      | (show Decoded _ _ 3; apply Decoded.three <;> omega)
  · simp only [decoderune, isCont]
    split_ifs <;> simp_all <;> first
      | (show Decoded _ _ 2; apply Decoded.two <;> omega)
      | (show Decoded _ _ 3; apply Decoded.three <;> omega)
      | (show Decoded _ _ 4; apply Decoded.four <;> omega)


theorem Decoded.encode {s : GoString} {r : Nat} {w : Nat} (h : Decoded s r w) :
    encoderune r = s.take w ∧ w ≤ s.length ∧ 2 ≤ w ∧ 0x7F < r := by
  cases h with
  | two b0 b1 t h1 h2 h3 h4 h5 =>
    refine ⟨?_, ?_, ?_, ?_⟩ <;> try first | omega | (simp only [List.length_cons]; omega)
    have c1 : ¬ ((b0.val % 32) * 64 + b1.val % 64 ≤ 0x7F) := by omega
    have c2 : (b0.val % 32) * 64 + b1.val % 64 ≤ 0x7FF := by omega
    simp only [encoderune, if_neg c1, if_pos c2, List.take_succ_cons, List.take_zero,
      List.cons.injEq, and_true]
    constructor <;> (apply Fin.ext; simp only [Fin.ofNat]; omega)
  | three b0 b1 b2 t h1 h2 h3 h4 h5 h6 h7 h8 =>
    refine ⟨?_, ?_, ?_, ?_⟩ <;> try first | omega | (simp only [List.length_cons]; omega)
    have c1 : ¬ ((b0.val % 16) * 4096 + (b1.val % 64) * 64 + b2.val % 64 ≤ 0x7F) := by omega
    have c2 : ¬ ((b0.val % 16) * 4096 + (b1.val % 64) * 64 + b2.val % 64 ≤ 0x7FF) := by omega
    have c3 : ¬ (0x10FFFF < (b0.val % 16) * 4096 + (b1.val % 64) * 64 + b2.val % 64 ∨
        (0xD800 ≤ (b0.val % 16) * 4096 + (b1.val % 64) * 64 + b2.val % 64 ∧
          (b0.val % 16) * 4096 + (b1.val % 64) * 64 + b2.val % 64 ≤ 0xDFFF)) := by omega
    have c4 : (b0.val % 16) * 4096 + (b1.val % 64) * 64 + b2.val % 64 ≤ 0xFFFF := by omega
    simp only [encoderune, if_neg c1, if_neg c2, if_neg c3, if_pos c4, List.take_succ_cons,
      List.take_zero, List.cons.injEq, and_true]
    refine ⟨?_, ?_, ?_⟩ <;> (apply Fin.ext; simp only [Fin.ofNat]; omega)
  | four b0 b1 b2 b3 t h1 h2 h3 h4 h5 h6 h7 h8 h9 h10 =>
    refine ⟨?_, ?_, ?_, ?_⟩ <;> try first | omega | (simp only [List.length_cons]; omega)
    have c1 : ¬ ((b0.val % 8) * 262144 + (b1.val % 64) * 4096 + (b2.val % 64) * 64
        + b3.val % 64 ≤ 0x7F) := by omega
    have c2 : ¬ ((b0.val % 8) * 262144 + (b1.val % 64) * 4096 + (b2.val % 64) * 64
        + b3.val % 64 ≤ 0x7FF) := by omega
    have c3 : ¬ (0x10FFFF < (b0.val % 8) * 262144 + (b1.val % 64) * 4096 + (b2.val % 64) * 64
        + b3.val % 64 ∨
        (0xD800 ≤ (b0.val % 8) * 262144 + (b1.val % 64) * 4096 + (b2.val % 64) * 64
          + b3.val % 64 ∧
          (b0.val % 8) * 262144 + (b1.val % 64) * 4096 + (b2.val % 64) * 64
            + b3.val % 64 ≤ 0xDFFF)) := by omega
    have c4 : ¬ ((b0.val % 8) * 262144 + (b1.val % 64) * 4096 + (b2.val % 64) * 64
        + b3.val % 64 ≤ 0xFFFF) := by omega
    simp only [encoderune, if_neg c1, if_neg c2, if_neg c3, if_neg c4, List.take_succ_cons,
      List.take_zero, List.cons.injEq, and_true]
    refine ⟨?_, ?_, ?_, ?_⟩ <;> (apply Fin.ext; simp only [Fin.ofNat]; omega)


theorem stringtosliceruneAux_drop (k : Nat) (s : GoString) :
    stringtosliceruneAux k s = stringtosliceruneAux 0 (s.drop k) := by
  induction k generalizing s with
  | zero => simp
  | succ k ih =>
    cases s with
    | nil => simp [stringtosliceruneAux]
    | cons b t => simp only [stringtosliceruneAux, List.drop_succ_cons]; exact ih t

theorem validStringAux_drop (k : Nat) (s : GoString) :
    validStringAux k s = validStringAux 0 (s.drop k) := by
  induction k generalizing s with
  | zero => simp
  | succ k ih =>
    cases s with
    | nil => simp [validStringAux]
    | cons b t => simp only [validStringAux, List.drop_succ_cons]; exact ih t

/-- Re-encoding the runes of a valid UTF-8 string gives the string back. -/
theorem slicerunetostring_stringtoslicerune_of_valid (s : GoString) (h : validString s = true) :
    slicerunetostring (stringtoslicerune s) = s := by
  unfold validString at h
  unfold stringtoslicerune
  obtain ⟨n, hn⟩ : ∃ n, s.length = n := ⟨_, rfl⟩
  induction n using Nat.strong_induction_on generalizing s with
  | _ n ih =>
    cases s with
    | nil => simp [stringtosliceruneAux, slicerunetostring]
    | cons b0 rest =>
      simp only [validStringAux] at h
      simp only [stringtosliceruneAux]
      by_cases hb : b0.val < 0x80
      · simp only [if_pos hb] at h ⊢
        have e : encoderune b0.val = [b0] := by
          have c : b0.val ≤ 0x7F := by omega
          simp only [encoderune, if_pos c, List.cons.injEq, and_true]
          apply Fin.ext; simp only [Fin.ofNat]; omega
        simp only [slicerunetostring, e, List.singleton_append, List.cons.injEq, true_and]
        exact ih rest.length (by simp only [List.length_cons] at hn; omega) rest h rfl
      · simp only [if_neg hb, Bool.and_eq_true, decide_eq_true_eq] at h ⊢
        obtain ⟨hw, hv⟩ := h
        rcases decoderune_spec (b0 :: rest) with he | hd
        · rw [he] at hw; exact absurd rfl hw
        · obtain ⟨e1, e2, e3, _⟩ := hd.encode
          rw [stringtosliceruneAux_drop]
          rw [validStringAux_drop] at hv
          have hlen : (rest.drop ((decoderune (b0 :: rest)).2 - 1)).length < n := by
            simp only [List.length_drop]; simp only [List.length_cons] at hn e2; omega
          have := ih _ hlen _ hv rfl
          simp only [slicerunetostring, this, e1]
          have hdrop : rest.drop ((decoderune (b0 :: rest)).2 - 1)
              = (b0 :: rest).drop (decoderune (b0 :: rest)).2 := by
            obtain ⟨w, hw2⟩ : ∃ w, (decoderune (b0 :: rest)).2 = w + 1 := ⟨_, (Nat.sub_add_cancel (by omega)).symm⟩
            rw [hw2]; simp
          rw [hdrop, List.take_append_drop]

theorem head_stringtoslicerune (s : GoString) :
    (stringtoslicerune s).head? = some 0x2D ↔ s.head? = some 0x2D := by
  unfold stringtoslicerune
  cases s with
  | nil => simp [stringtosliceruneAux]
  | cons b0 rest =>
    simp only [stringtosliceruneAux, List.head?_cons, Option.some.injEq]
    by_cases hb : b0.val < 0x80
    · simp only [if_pos hb, List.head?_cons, Option.some.injEq]
      constructor
      · intro h; apply Fin.ext; simpa using h
      · intro h; rw [h]; rfl
    · simp only [if_neg hb, List.head?_cons, Option.some.injEq]
      constructor
      · intro h
        rcases decoderune_spec (b0 :: rest) with he | hd
        · rw [he] at h; simp [runeError] at h
        · have := hd.encode.2.2.2; omega
      · intro h; rw [h] at hb; exact absurd (by decide) hb

theorem stringtoslicerune_cons_ascii (b : Byte) (t : GoString) (hb : b.val < 0x80) :
    stringtoslicerune (b :: t) = b.val :: stringtoslicerune t := by
  simp [stringtoslicerune, stringtosliceruneAux, hb]


theorem fin_ofNat_val (n : Nat) (h : n < 256) : ((Fin.ofNat n : Byte)).val = n := by
  simp only [Fin.ofNat]; omega

/-- Decoding the encoding of a Unicode scalar value gives the value back, with
the length of the encoding as width. -/
theorem decoderune_encoderune (r : Nat) (t : GoString) (h1 : 0x7F < r) (h2 : r ≤ 0x10FFFF)
    (h3 : ¬ (0xD800 ≤ r ∧ r ≤ 0xDFFF)) :
    decoderune (encoderune r ++ t) = (r, (encoderune r).length) := by
  by_cases c2 : r ≤ 0x7FF
  · have e : encoderune r = [Fin.ofNat (0xC0 + r / 64), Fin.ofNat (0x80 + r % 64)] := by
      simp only [encoderune, if_neg (show ¬ r ≤ 0x7F by omega), if_pos c2]
    have v0 := fin_ofNat_val (0xC0 + r / 64) (by omega)
    have v1 := fin_ofNat_val (0x80 + r % 64) (by omega)
    rw [e]
    simp only [List.cons_append, List.nil_append, decoderune, isCont, v0, v1, List.length_cons,
      List.length_nil]
    rw [if_pos (by omega)]
    have c : (decide (0x80 ≤ 0x80 + r % 64) && decide (0x80 + r % 64 ≤ 0xBF)) = true := by
      simp only [Bool.and_eq_true, decide_eq_true_eq]; omega
    rw [if_pos c, if_pos (by omega)]
    congr 1
    omega
  · by_cases c3 : r ≤ 0xFFFF
    · have e : encoderune r = [Fin.ofNat (0xE0 + r / 4096), Fin.ofNat (0x80 + (r / 64) % 64),
          Fin.ofNat (0x80 + r % 64)] := by
        simp only [encoderune, if_neg (show ¬ r ≤ 0x7F by omega), if_neg c2,
          if_neg (show ¬ (0x10FFFF < r ∨ (0xD800 ≤ r ∧ r ≤ 0xDFFF)) by omega), if_pos c3]
      have v0 := fin_ofNat_val (0xE0 + r / 4096) (by omega)
      have v1 := fin_ofNat_val (0x80 + (r / 64) % 64) (by omega)
      have v2 := fin_ofNat_val (0x80 + r % 64) (by omega)
      rw [e]
      simp only [List.cons_append, List.nil_append, decoderune, isCont, v0, v1, v2,
        List.length_cons, List.length_nil]
      rw [if_neg (by omega), if_pos (by omega)]
      have c : ((decide (0x80 ≤ 0x80 + (r / 64) % 64) && decide (0x80 + (r / 64) % 64 ≤ 0xBF)) &&
          (decide (0x80 ≤ 0x80 + r % 64) && decide (0x80 + r % 64 ≤ 0xBF))) = true := by
        simp only [Bool.and_eq_true, decide_eq_true_eq]; omega
      rw [if_pos c, if_pos (by omega)]
      congr 1
      omega
    · have e : encoderune r = [Fin.ofNat (0xF0 + r / 262144), Fin.ofNat (0x80 + (r / 4096) % 64),
          Fin.ofNat (0x80 + (r / 64) % 64), Fin.ofNat (0x80 + r % 64)] := by
        simp only [encoderune, if_neg (show ¬ r ≤ 0x7F by omega), if_neg c2,
          if_neg (show ¬ (0x10FFFF < r ∨ (0xD800 ≤ r ∧ r ≤ 0xDFFF)) by omega), if_neg c3]
      have v0 := fin_ofNat_val (0xF0 + r / 262144) (by omega)
      have v1 := fin_ofNat_val (0x80 + (r / 4096) % 64) (by omega)
      have v2 := fin_ofNat_val (0x80 + (r / 64) % 64) (by omega)
      have v3 := fin_ofNat_val (0x80 + r % 64) (by omega)
      rw [e]
      simp only [List.cons_append, List.nil_append, decoderune, isCont, v0, v1, v2, v3,
        List.length_cons, List.length_nil]
      rw [if_neg (by omega), if_neg (by omega), if_pos (by omega)]
      have c : (((decide (0x80 ≤ 0x80 + (r / 4096) % 64) &&
            decide (0x80 + (r / 4096) % 64 ≤ 0xBF)) &&
          (decide (0x80 ≤ 0x80 + (r / 64) % 64) && decide (0x80 + (r / 64) % 64 ≤ 0xBF))) &&
          (decide (0x80 ≤ 0x80 + r % 64) && decide (0x80 + r % 64 ≤ 0xBF))) = true := by
        simp only [Bool.and_eq_true, decide_eq_true_eq]; omega
      rw [if_pos c, if_pos (by omega)]
      congr 1
      omega

theorem encoderune_head (r : Nat) (h1 : 0x7F < r) :
    ∃ b t, encoderune r = b :: t ∧ ¬ b.val < 0x80 ∧ t ≠ [] := by
  unfold encoderune
  split_ifs with c1 c2 c3 c4
  · omega
  · exact ⟨_, _, rfl, by rw [fin_ofNat_val _ (by omega)]; omega, by simp⟩
  · exact ⟨_, _, rfl, by decide, by simp⟩
  · exact ⟨_, _, rfl, by rw [fin_ofNat_val _ (by omega)]; omega, by simp⟩
  · by_cases c5 : r ≤ 0x10FFFF
    · exact ⟨_, _, rfl, by rw [fin_ofNat_val _ (by omega)]; omega, by simp⟩
    · omega

theorem slicerunetostring_cons (r : Nat) (rs : List Nat) :
    slicerunetostring (r :: rs) = encoderune r ++ slicerunetostring rs := rfl

/-- Every sequence of Unicode scalar values is recovered from its encoding,
and the encoding is valid UTF-8. -/
theorem stringtoslicerune_slicerunetostring (rs : List Nat)
    (h : ∀ r ∈ rs, r ≤ 0x10FFFF ∧ ¬ (0xD800 ≤ r ∧ r ≤ 0xDFFF)) :
    stringtoslicerune (slicerunetostring rs) = rs ∧
      validString (slicerunetostring rs) = true := by
  unfold stringtoslicerune validString
  induction rs with
  | nil => simp [slicerunetostring, stringtosliceruneAux, validStringAux]
  | cons r rs ih =>
    obtain ⟨ih1, ih2⟩ := ih (fun x hx => h x (List.mem_cons_of_mem _ hx))
    obtain ⟨hr1, hr2⟩ := h r (List.mem_cons_self _ _)
    rw [slicerunetostring_cons]
    by_cases c1 : r ≤ 0x7F
    · have e : encoderune r = [Fin.ofNat r] := by simp only [encoderune, if_pos c1]
      have v := fin_ofNat_val r (by omega)
      rw [e, List.singleton_append]
      simp only [stringtosliceruneAux, validStringAux, v,
        if_pos (show r < 0x80 by omega), ih1, ih2, and_self]
    · have hd := decoderune_encoderune r (slicerunetostring rs) (by omega) hr1 hr2
      obtain ⟨b, t, hbt, hb, ht⟩ := encoderune_head r (by omega)
      rw [hbt] at hd ⊢
      rw [List.cons_append] at hd ⊢
      simp only [stringtosliceruneAux, validStringAux, if_neg hb]
      rw [hd]
      simp only [List.length_cons, Nat.add_sub_cancel]
      rw [stringtosliceruneAux_drop, validStringAux_drop, List.drop_left, ih1, ih2]
      exact ⟨rfl, by simpa using ht⟩

/-! ## Normalisation: `ApplyDefaults` -/

/-- The pagination fields after `ApplyDefaults`. -/
theorem applyDefaults_paging (dps : Int) (fo : FilterOption) :
    (ApplyDefaults dps fo).PageNumber = (if fo.Download then 0 else fo.PageNumber) ∧
    (ApplyDefaults dps fo).PageSize =
      (if fo.Download then 0 else if fo.PageSize = 0 then dps else fo.PageSize) := by
  unfold ApplyDefaults
  dsimp only
  split_ifs <;> simp_all

/-- The sort fields after `ApplyDefaults` when `SortBy` starts with the byte `-`. -/
theorem applyDefaults_minus (dps : Int) (fo : FilterOption) (t : GoString)
    (h : fo.SortBy = 0x2D :: t) :
    (ApplyDefaults dps fo).desc = true ∧
    (ApplyDefaults dps fo).sortBy = slicerunetostring (stringtoslicerune t) ∧
    (ApplyDefaults dps fo).SortBy = slicerunetostring (stringtoslicerune t) := by
  have hr : stringtoslicerune (0x2D :: t) = 0x2D :: stringtoslicerune t :=
    stringtoslicerune_cons_ascii 0x2D t (by decide)
  unfold ApplyDefaults
  dsimp only
  split_ifs <;> simp_all

/-- The sort fields after `ApplyDefaults` when `SortBy` does not start with `-`. -/
theorem applyDefaults_plain (dps : Int) (fo : FilterOption)
    (h : fo.SortBy.head? ≠ some 0x2D) :
    (ApplyDefaults dps fo).desc = fo.desc ∧
    (ApplyDefaults dps fo).sortBy = fo.SortBy ∧
    (ApplyDefaults dps fo).SortBy = fo.SortBy := by
  have hr : ¬ ((stringtoslicerune fo.SortBy).head? = some 0x2D) := by
    rw [head_stringtoslicerune]; exact h
  unfold ApplyDefaults
  dsimp only
  split_ifs <;> simp_all

/-! ## Integer ranges -/

/-- An operation whose mathematical result is an `int` does not wrap. -/
theorem wrapInt_of_isInt (x : Int) (h : IsInt x) : wrapInt x = x := by
  simp only [IsInt, minInt, maxInt] at h
  unfold wrapInt
  omega

/-- Every result of an `int` operation is an `int`. -/
theorem wrapInt_isInt (x : Int) : IsInt (wrapInt x) := by
  simp only [IsInt, minInt, maxInt]
  unfold wrapInt
  omega

/-- Where the arithmetic wraps, `sliceRange` leaves the bounds: a product that
overflows to 1 followed by a sum that overflows to `minInt`; a sum that
overflows to -2; a product that overflows to 4. -/
theorem sliceRange_wraps :
    sliceRange { PageNumber := maxInt, PageSize := maxInt } 10 = (1, minInt) ∧
    sliceRange { PageNumber := 1, PageSize := maxInt } maxInt = (maxInt, -2) ∧
    sliceRange { PageNumber := 4611686018427387905, PageSize := 4 } 100 = (4, 8) := by
  decide

/-- For a non-negative length, and when neither the product nor the end of a
page that starts inside the length overflows, the computed range is a valid
sub-range. -/
theorem sliceRange_bounds (fo : FilterOption) (full : Int) (hfull : 0 ≤ full)
    (hsize : fo.PageSize ≤ maxInt) (hprod : IsInt (fo.PageNumber * fo.PageSize))
    (hsum : fo.PageNumber * fo.PageSize ≤ full →
      fo.PageNumber * fo.PageSize + fo.PageSize ≤ maxInt) :
    0 ≤ (sliceRange fo full).1 ∧ (sliceRange fo full).1 ≤ (sliceRange fo full).2 ∧
      (sliceRange fo full).2 ≤ full := by
  simp only [IsInt, minInt, maxInt] at hsize hprod hsum
  unfold sliceRange wrapInt
  generalize fo.PageNumber * fo.PageSize = m at hprod hsum ⊢
  dsimp only
  split_ifs <;> simp only [] <;> omega

/-! ## Claims about normalisation -/

/-- C1 (as stated, refuted): the freshly constructed FilterOption with
SortBy = "-\xff" has a non-empty SortBy that begins with `-`, yet after
ApplyDefaults SortAttr() is the three bytes of U+FFFD and not SortBy without
its first character. -/
theorem sortAttr_invalid_utf8_replaced :
    ({ SortBy := [0x2D, 0xFF] } : FilterOption).desc = false ∧
    ({ SortBy := [0x2D, 0xFF] } : FilterOption).SortBy ≠ [] ∧
    ({ SortBy := [0x2D, 0xFF] } : FilterOption).SortBy.head? = some 0x2D ∧
    SortAttr (ApplyDefaults DefaultPageSize { SortBy := [0x2D, 0xFF] }) = [0xEF, 0xBF, 0xBD] ∧
    SortAttr (ApplyDefaults DefaultPageSize { SortBy := [0x2D, 0xFF] }) ≠
      ({ SortBy := [0x2D, 0xFF] } : FilterOption).SortBy.tail := by
  decide

/-- C1 (amended): for a FilterOption whose descending flag is at its zero value
and whose SortBy is a non-empty string s, after ApplyDefaults: if s begins with
`-` then IsSortDesc() is true and SortAttr() is `string([]rune(s)[1:])`, the
re-encoded runes of the rest of s, which is s without its first character
whenever that rest is valid UTF-8; otherwise IsSortDesc() is false and
SortAttr() is s. -/
theorem applyDefaults_sort_parse (dps : Int) (fo : FilterOption)
    (hdesc : fo.desc = false) (hne : fo.SortBy ≠ []) :
    (fo.SortBy.head? = some 0x2D →
      IsSortDesc (ApplyDefaults dps fo) = true ∧
      SortAttr (ApplyDefaults dps fo) = slicerunetostring (stringtoslicerune fo.SortBy.tail) ∧
      (validString fo.SortBy.tail = true → SortAttr (ApplyDefaults dps fo) = fo.SortBy.tail)) ∧
    (fo.SortBy.head? ≠ some 0x2D →
      IsSortDesc (ApplyDefaults dps fo) = false ∧ SortAttr (ApplyDefaults dps fo) = fo.SortBy) := by
  constructor
  · intro hh
    obtain ⟨t, ht⟩ : ∃ t, fo.SortBy = 0x2D :: t := by
      cases hs : fo.SortBy with
      | nil => exact absurd hs hne
      | cons b t =>
        rw [hs] at hh
        simp only [List.head?_cons, Option.some.injEq] at hh
        exact ⟨t, by rw [hh]⟩
    obtain ⟨h1, h2, _⟩ := applyDefaults_minus dps fo t ht
    rw [ht]
    simp only [List.tail_cons, IsSortDesc, SortAttr]
    refine ⟨h1, h2, fun hv => ?_⟩
    rw [h2]
    exact slicerunetostring_stringtoslicerune_of_valid t hv
  · intro hh
    obtain ⟨h1, h2, _⟩ := applyDefaults_plain dps fo hh
    simp only [IsSortDesc, SortAttr]
    exact ⟨h1.trans hdesc, h2⟩

/-- C1 witness: the inputs "-name" and "name" of the test suite. -/
theorem applyDefaults_sort_parse_witness :
    (IsSortDesc (ApplyDefaults 10 { SortBy := [0x2D, 110, 97, 109, 101] }) = true ∧
      SortAttr (ApplyDefaults 10 { SortBy := [0x2D, 110, 97, 109, 101] }) = [110, 97, 109, 101]) ∧
    (IsSortDesc (ApplyDefaults 10 { SortBy := [110, 97, 109, 101] }) = false ∧
      SortAttr (ApplyDefaults 10 { SortBy := [110, 97, 109, 101] }) = [110, 97, 109, 101]) :=
  ⟨⟨((applyDefaults_sort_parse 10 { SortBy := [0x2D, 110, 97, 109, 101] } rfl (by decide)).1
        (by decide)).1,
    ((applyDefaults_sort_parse 10 { SortBy := [0x2D, 110, 97, 109, 101] } rfl (by decide)).1
        (by decide)).2.2 (by decide)⟩,
   (applyDefaults_sort_parse 10 { SortBy := [110, 97, 109, 101] } rfl (by decide)).2 (by decide)⟩

/-- C2: with Download = true, whatever PageNumber and PageSize were, after
ApplyDefaults both PageNumber and PageSize are 0. -/
theorem applyDefaults_download (dps : Int) (fo : FilterOption) (h : fo.Download = true) :
    (ApplyDefaults dps fo).PageNumber = 0 ∧ (ApplyDefaults dps fo).PageSize = 0 := by
  obtain ⟨h1, h2⟩ := applyDefaults_paging dps fo
  rw [h1, h2, h]
  exact ⟨rfl, rfl⟩

/-- C2 witness: a download request for page 7 of size 25. -/
theorem applyDefaults_download_witness :
    (ApplyDefaults 10 { PageNumber := 7, PageSize := 25, Download := true }).PageNumber = 0 ∧
    (ApplyDefaults 10 { PageNumber := 7, PageSize := 25, Download := true }).PageSize = 0 :=
  applyDefaults_download 10 { PageNumber := 7, PageSize := 25, Download := true } rfl

/-- C3: with Download = false and PageSize = 0, after ApplyDefaults PageSize is
the current value of DefaultPageSize; with the initial value of that variable
it is 10. -/
theorem applyDefaults_default_page_size (dps : Int) (fo : FilterOption)
    (hd : fo.Download = false) (hp : fo.PageSize = 0) :
    (ApplyDefaults dps fo).PageSize = dps ∧
    (ApplyDefaults DefaultPageSize fo).PageSize = 10 := by
  have h1 := (applyDefaults_paging dps fo).2
  have h2 := (applyDefaults_paging DefaultPageSize fo).2
  rw [hd, hp] at h1 h2
  exact ⟨h1, h2⟩

/-- C3 witness: the test case `{PageNumber: 1}` with the default reconfigured to 50. -/
theorem applyDefaults_default_page_size_witness :
    (ApplyDefaults 50 { PageNumber := 1 }).PageSize = 50 ∧
    (ApplyDefaults DefaultPageSize { PageNumber := 1 }).PageSize = 10 :=
  applyDefaults_default_page_size 50 { PageNumber := 1 } rfl rfl

/-! ## Claims about ranges -/

/-- C4: for PageSize > 0, PageNumber >= 0 and a length full with
PageNumber*PageSize <= full, when the arithmetic is exact (full is an int and
the end offset PageNumber*PageSize + PageSize does not overflow),
CalcRange(full) returns from = PageNumber*PageSize and
to = min(PageNumber*PageSize + PageSize, full). -/
theorem calcRange_in_range (fo : FilterOption) (full : Int)
    (hps : 0 < fo.PageSize) (hpn : 0 ≤ fo.PageNumber)
    (hle : fo.PageNumber * fo.PageSize ≤ full)
    (hfull : full ≤ maxInt)
    (hsum : fo.PageNumber * fo.PageSize + fo.PageSize ≤ maxInt) :
    CalcRange fo full =
      (fo.PageNumber * fo.PageSize, min (fo.PageNumber * fo.PageSize + fo.PageSize) full) := by
  have hm : 0 ≤ fo.PageNumber * fo.PageSize := Int.mul_nonneg hpn (Int.le_of_lt hps)
  simp only [maxInt] at hfull hsum
  unfold CalcRange sliceRange wrapInt
  generalize fo.PageNumber * fo.PageSize = m at hm hle hsum ⊢
  dsimp only
  rw [Int.min_def]
  split_ifs <;> (try simp only [Prod.mk.injEq, and_true, true_and]) <;> omega

/-- C4 witness: CalcRange(20) with PageNumber = 1, PageSize = 10 returns (10, 20). -/
theorem calcRange_in_range_witness :
    CalcRange { PageNumber := 1, PageSize := 10 } 20 = (10, 20) :=
  calcRange_in_range { PageNumber := 1, PageSize := 10 } 20 (by decide) (by decide) (by decide)
    (by decide) (by decide)

/-- C5: with PageSize <= 0, for every integer full and any PageNumber,
CalcRange(full) returns (0, full). -/
theorem calcRange_unpaged (fo : FilterOption) (full : Int) (h : fo.PageSize ≤ 0) :
    CalcRange fo full = (0, full) := by
  simp only [CalcRange, sliceRange, if_pos h]

/-- C5 witness: a negative PageSize and a negative length. -/
theorem calcRange_unpaged_witness :
    CalcRange { PageNumber := 3, PageSize := -4 } (-7) = (0, -7) :=
  calcRange_unpaged { PageNumber := 3, PageSize := -4 } (-7) (by decide)

/-- C7 (as stated, refuted): CalcRange(15) with PageNumber = 2 and PageSize = 10
does not return (0, 15). -/
theorem calcRange_15_ne :
    CalcRange { PageNumber := 2, PageSize := 10 } 15 ≠ (0, 15) := by
  decide

/-- C7 (amended): CalcRange(15) with PageNumber = 2 and PageSize = 10 returns
(0, 10): from = 20 > 15 becomes 15 - 20 = -5 and is clamped to 0, then
to = 0 + 10 = 10, which does not exceed 15 and is kept. -/
theorem calcRange_15_eq :
    CalcRange { PageNumber := 2, PageSize := 10 } 15 = (0, 10) := by
  decide

/-- C8 (as stated, refuted): with exact arithmetic (PageSize an int, no
overflow in PageNumber*PageSize nor in the end offset of a page that starts
inside the length) no length full >= 0, PageSize > 0 and PageNumber >= 0 make
CalcRange(full) return a pair violating 0 <= from <= to <= full. -/
theorem calcRange_no_violation :
    ¬ ∃ full pageSize pageNumber : Int, 0 ≤ full ∧ 0 < pageSize ∧ 0 ≤ pageNumber ∧
      pageSize ≤ maxInt ∧ IsInt (pageNumber * pageSize) ∧
      (pageNumber * pageSize ≤ full → pageNumber * pageSize + pageSize ≤ maxInt) ∧
      ¬ (0 ≤ (CalcRange { PageNumber := pageNumber, PageSize := pageSize } full).1 ∧
        (CalcRange { PageNumber := pageNumber, PageSize := pageSize } full).1 ≤
          (CalcRange { PageNumber := pageNumber, PageSize := pageSize } full).2 ∧
        (CalcRange { PageNumber := pageNumber, PageSize := pageSize } full).2 ≤ full) := by
  rintro ⟨full, ps, pn, hfull, _, _, hsize, hprod, hsum, hv⟩
  exact hv (sliceRange_bounds { PageNumber := pn, PageSize := ps } full hfull hsize hprod hsum)

/-- C8 (amended): for every length full >= 0 and every PageSize and PageNumber,
however large, as long as the arithmetic is exact (no overflow in
PageNumber*PageSize nor in the end offset of a page that starts inside the
length), CalcRange(full) returns (from, to) with 0 <= from <= to <= full. The
order is broken only where the 64-bit arithmetic wraps, as for
PageNumber = PageSize = MaxInt64 and full = 10, which returns (1, MinInt64),
or for a negative length, as CalcRange(-5) with PageNumber = 0, PageSize = 10,
which returns (0, -5). -/
theorem calcRange_ordered (fo : FilterOption) (full : Int) (hfull : 0 ≤ full)
    (hsize : fo.PageSize ≤ maxInt) (hprod : IsInt (fo.PageNumber * fo.PageSize))
    (hsum : fo.PageNumber * fo.PageSize ≤ full →
      fo.PageNumber * fo.PageSize + fo.PageSize ≤ maxInt) :
    (0 ≤ (CalcRange fo full).1 ∧ (CalcRange fo full).1 ≤ (CalcRange fo full).2 ∧
      (CalcRange fo full).2 ≤ full) ∧
    CalcRange { PageNumber := maxInt, PageSize := maxInt } 10 = (1, minInt) ∧
    CalcRange { PageNumber := 0, PageSize := 10 } (-5) = (0, -5) :=
  ⟨sliceRange_bounds fo full hfull hsize hprod hsum, by decide, by decide⟩

/-- C8 witness: a page number far past the end of 15 rows. -/
theorem calcRange_ordered_witness :
    (0 ≤ (CalcRange { PageNumber := 1000000, PageSize := 10 } 15).1 ∧
      (CalcRange { PageNumber := 1000000, PageSize := 10 } 15).1 ≤
        (CalcRange { PageNumber := 1000000, PageSize := 10 } 15).2 ∧
      (CalcRange { PageNumber := 1000000, PageSize := 10 } 15).2 ≤ 15) ∧
    CalcRange { PageNumber := maxInt, PageSize := maxInt } 10 = (1, minInt) ∧
    CalcRange { PageNumber := 0, PageSize := 10 } (-5) = (0, -5) :=
  calcRange_ordered { PageNumber := 1000000, PageSize := 10 } 15 (by decide) (by decide)
    (by decide) (by decide)

/-! ## Claims about visibility -/

/-- C9: for every Show value and every rowDeletedFlag, IsIgnoredRow is true
exactly when (the flag is true and Show is HideDeleted) or (the flag is false
and Show is ShowDeletedOnly); with Show = ShowAll it is false for both flags. -/
theorem isIgnoredRow_iff (fo : FilterOption) (rowDeletedFlag : Bool) :
    (IsIgnoredRow fo rowDeletedFlag = true ↔
      (rowDeletedFlag = true ∧ fo.Show = HideDeleted) ∨
      (rowDeletedFlag = false ∧ fo.Show = ShowDeletedOnly)) ∧
    IsIgnoredRow { fo with Show := ShowAll } rowDeletedFlag = false := by
  constructor
  · unfold IsIgnoredRow
    split_ifs with h1 h2
    · simp [h1]
    · simp [h2]
    · simp only [Bool.false_eq_true, false_iff, not_or]
      exact ⟨h1, h2⟩
  · unfold IsIgnoredRow
    have e1 : ShowAll ≠ HideDeleted := by decide
    have e2 : ShowAll ≠ ShowDeletedOnly := by decide
    simp [e1, e2]

/-! ## The insertion sort of package sort -/

theorem swapAt_cons_succ {α : Type} (a : α) (xs : List α) (i j : Nat) :
    swapAt (a :: xs) (i + 1) (j + 1) = a :: swapAt xs i j := by
  unfold swapAt
  simp only [List.getElem?_cons_succ]
  split <;> simp_all

theorem swapAt_adjacent {α : Type} (p : List α) (y x : α) (q : List α) :
    swapAt (p ++ y :: x :: q) (p.length + 1) p.length = p ++ x :: y :: q := by
  induction p with
  | nil => simp [swapAt]
  | cons a p ih =>
    simp only [List.cons_append, List.length_cons]
    rw [swapAt_cons_succ, ih]


theorem less_adjacent {α : Type} (less : LessFunc α) (lt : α → α → Bool)
    (hind : ∀ (cur : List α) (i j : Nat) (hi : i < cur.length) (hj : j < cur.length),
      less cur i j = lt (cur.get ⟨i, hi⟩) (cur.get ⟨j, hj⟩))
    (p : List α) (y x : α) (q : List α) :
    less (p ++ y :: x :: q) (p.length + 1) p.length = lt x y := by
  have hi : p.length + 1 < (p ++ y :: x :: q).length := by simp
  have hj : p.length < (p ++ y :: x :: q).length := by simp
  rw [hind _ _ _ hi hj]
  have e1 : (p ++ y :: x :: q).get ⟨p.length + 1, hi⟩ = x := by
    simp [List.getElem_append_right]
  have e2 : (p ++ y :: x :: q).get ⟨p.length, hj⟩ = y := by
    simp [List.getElem_append_right]
  rw [e1, e2]

theorem insertionInner_spec {α : Type} (less : LessFunc α) (lt : α → α → Bool)
    (hind : ∀ (cur : List α) (i j : Nat) (hi : i < cur.length) (hj : j < cur.length),
      less cur i j = lt (cur.get ⟨i, hi⟩) (cur.get ⟨j, hj⟩))
    (L : List α) (x : α) (post : List α) (hx : x ∉ L)
    (hasym : ∀ a b, a ∈ x :: L → b ∈ x :: L → a ≠ b → lt a b = true → lt b a = false)
    (hneg : ∀ a b c, a ∈ x :: L → b ∈ x :: L → c ∈ x :: L →
      lt a b = false → lt b c = false → lt a c = false)
    (hsorted : L.reverse.Pairwise (fun a b => lt b a = false)) :
    ∃ M, insertionInner less L.length (L.reverse ++ x :: post) = M ++ post ∧
      M.Perm (x :: L) ∧ M.Pairwise (fun a b => lt b a = false) := by
  induction L generalizing post with
  | nil => exact ⟨[x], by simp [insertionInner], List.Perm.refl _, List.pairwise_singleton _ _⟩
  | cons y L ih =>
    have hxy : x ≠ y := fun h => hx (h ▸ List.mem_cons_self _ _)
    have hxL : x ∉ L := fun h => hx (List.mem_cons_of_mem _ h)
    have hform : (y :: L).reverse ++ x :: post = L.reverse ++ y :: x :: post := by simp
    rw [List.reverse_cons, List.pairwise_append] at hsorted
    obtain ⟨hs1, -, hs3⟩ := hsorted
    have hlen : L.length = L.reverse.length := by simp
    rw [hform, List.length_cons]
    unfold insertionInner
    have hl := less_adjacent less lt hind L.reverse y x post
    rw [← hlen] at hl
    rw [hl]
    by_cases hlt : lt x y = true
    · rw [if_pos hlt]
      have hsw := swapAt_adjacent L.reverse y x post
      rw [← hlen] at hsw
      rw [hsw]
      obtain ⟨M, hM1, hM2, hM3⟩ := ih (y :: post) hxL
        (fun a b ha hb => hasym a b (by simp at ha ⊢; tauto) (by simp at hb ⊢; tauto))
        (fun a b c ha hb hc => hneg a b c (by simp at ha ⊢; tauto) (by simp at hb ⊢; tauto)
          (by simp at hc ⊢; tauto))
        hs1
      refine ⟨M ++ [y], by rw [hM1]; simp, ?_, ?_⟩
      · have : (M ++ [y]).Perm (y :: M) := by
          exact (List.perm_append_comm : (M ++ [y]).Perm ([y] ++ M))
        exact this.trans ((List.Perm.cons y hM2).trans (List.Perm.swap x y L))
      · rw [List.pairwise_append]
        refine ⟨hM3, List.pairwise_singleton _ _, ?_⟩
        intro m hm b hb
        rw [List.mem_singleton] at hb
        subst hb
        rcases List.mem_cons.1 (hM2.mem_iff.1 hm) with h | h
        · subst h
          exact hasym m b (by simp) (by simp) hxy hlt
        · exact hs3 m (List.mem_reverse.2 h) b (List.mem_singleton_self _)
    · rw [if_neg hlt]
      have hlt2 : lt x y = false := by simpa using hlt
      refine ⟨L.reverse ++ [y, x], by simp, ?_, ?_⟩
      · have h1 : (L.reverse ++ [y, x]).Perm ([y, x] ++ L.reverse) := List.perm_append_comm
        have h2 : ([y, x] ++ L.reverse).Perm (y :: x :: L) :=
          List.Perm.cons y (List.Perm.cons x (List.reverse_perm L))
        exact (h1.trans h2).trans (List.Perm.swap x y L)
      · rw [List.pairwise_append]
        refine ⟨hs1, ?_, ?_⟩
        · simp [hlt2]
        · intro m hm b hb
          have hmL : m ∈ L := List.mem_reverse.1 hm
          have hmy : lt y m = false := hs3 m hm y (List.mem_singleton_self _)
          rcases List.mem_cons.1 hb with h | h
          · subst h; exact hmy
          · rw [List.mem_singleton] at h
            subst h
            exact hneg b y m (by simp) (by simp) (by simp [hmL]) hlt2 hmy


theorem insertionOuter_spec {α : Type} (less : LessFunc α) (lt : α → α → Bool)
    (hind : ∀ (cur : List α) (i j : Nat) (hi : i < cur.length) (hj : j < cur.length),
      less cur i j = lt (cur.get ⟨i, hi⟩) (cur.get ⟨j, hj⟩))
    (n : Nat) : ∀ (i : Nat) (xs : List α), i + n = xs.length → xs.Nodup →
      (∀ a b, a ∈ xs → b ∈ xs → a ≠ b → lt a b = true → lt b a = false) →
      (∀ a b c, a ∈ xs → b ∈ xs → c ∈ xs → lt a b = false → lt b c = false → lt a c = false) →
      (xs.take i).Pairwise (fun a b => lt b a = false) →
      (insertionOuter less i n xs).Perm xs ∧
        (insertionOuter less i n xs).Pairwise (fun a b => lt b a = false) := by
  induction n with
  | zero =>
    intro i xs hlen _ _ _ hs
    have : xs.take i = xs := List.take_of_length_le (by omega)
    rw [this] at hs
    exact ⟨List.Perm.refl _, hs⟩
  | succ n ih =>
    intro i xs hlen hnd hasym hneg hs
    have hi : i < xs.length := by omega
    have hsplit : xs = xs.take i ++ xs[i] :: xs.drop (i + 1) := by
      rw [← List.drop_eq_getElem_cons hi, List.take_append_drop]
    have hmemx : xs[i] ∈ xs := List.getElem_mem hi
    have hsub : ∀ a, a ∈ xs[i] :: (xs.take i).reverse → a ∈ xs := by
      intro a ha
      rcases List.mem_cons.1 ha with h | h
      · rw [h]; exact hmemx
      · exact List.mem_of_mem_take (List.mem_reverse.1 h)
    have hx : xs[i] ∉ (xs.take i).reverse := by
      intro h
      have hnd2 := hnd
      rw [hsplit, List.nodup_append] at hnd2
      exact hnd2.2.2 (List.mem_reverse.1 h) (List.mem_cons_self _ _)
    have hL : ((xs.take i).reverse).length = i := by
      rw [List.length_reverse, List.length_take]; omega
    obtain ⟨M, hM1, hM2, hM3⟩ := insertionInner_spec less lt hind (xs.take i).reverse xs[i]
      (xs.drop (i + 1)) hx
      (fun a b ha hb => hasym a b (hsub a ha) (hsub b hb))
      (fun a b c ha hb hc => hneg a b c (hsub a ha) (hsub b hb) (hsub c hc))
      (by rw [List.reverse_reverse]; exact hs)
    rw [hL, List.reverse_reverse, ← hsplit] at hM1
    have hMlen : M.length = i + 1 := by
      rw [List.Perm.length_eq hM2, List.length_cons, hL]
    have hperm : (insertionInner less i xs).Perm xs := by
      rw [hM1]
      have h1 : (M ++ xs.drop (i + 1)).Perm ((xs[i] :: (xs.take i).reverse) ++ xs.drop (i + 1)) :=
        List.Perm.append_right _ hM2
      have h2 : ((xs[i] :: (xs.take i).reverse) ++ xs.drop (i + 1)).Perm
          ((xs.take i ++ [xs[i]]) ++ xs.drop (i + 1)) := by
        apply List.Perm.append_right
        have h3 : (xs[i] :: (xs.take i).reverse).Perm (xs[i] :: xs.take i) :=
          List.Perm.cons _ (List.reverse_perm _)
        exact h3.trans (List.perm_append_comm : ([xs[i]] ++ xs.take i).Perm (xs.take i ++ [xs[i]]))
      have h4 : (xs.take i ++ [xs[i]]) ++ xs.drop (i + 1) = xs := by
        rw [List.append_assoc, List.singleton_append, ← hsplit]
      rw [h4] at h2
      exact h1.trans h2
    have htake : (insertionInner less i xs).take (i + 1) = M := by
      rw [hM1, ← hMlen, List.take_left]
    obtain ⟨r1, r2⟩ := ih (i + 1) (insertionInner less i xs)
      (by rw [List.Perm.length_eq hperm]; omega) (hperm.nodup_iff.2 hnd)
      (fun a b ha hb => hasym a b (hperm.mem_iff.1 ha) (hperm.mem_iff.1 hb))
      (fun a b c ha hb hc => hneg a b c (hperm.mem_iff.1 ha) (hperm.mem_iff.1 hb)
        (hperm.mem_iff.1 hc))
      (by rw [htake]; exact hM3)
    exact ⟨r1.trans hperm, r2⟩

/-- Go's insertion sort meets the documented behaviour of `sort.Slice`. -/
theorem insertionSort_func_sorts {α : Type} : SortsSlices (insertionSort_func : SliceSorter α) := by
  intro less xs hnd hreq
  obtain ⟨lt, hind, hasym, -, hneg⟩ := hreq
  have key : (insertionSort_func less xs).Perm xs ∧
      (insertionSort_func less xs).Pairwise (fun a b => lt b a = false) := by
    unfold insertionSort_func
    cases xs with
    | nil => exact ⟨List.Perm.refl _, List.Pairwise.nil⟩
    | cons a t =>
      apply insertionOuter_spec less lt hind _ 1 (a :: t) _ hnd hasym hneg
      · simp
      · simp only [List.length_cons]; omega
  refine ⟨key.1, ?_⟩
  intro i j hij hj
  have hi : i < (insertionSort_func less xs).length := by omega
  rw [hind _ j i hj hi]
  exact (List.pairwise_iff_getElem.1 key.2) i j hi hj hij

/-! ## Claims about sorting -/

theorem intLess_requirements (s : List Int) :
    LessRequirements (fun cur i j => intLess cur i j) s := by
  refine ⟨fun a b => decide (a < b), ?_, ?_, ?_, ?_⟩
  · intro cur i j hi hj
    simp only [intLess, List.get_eq_getElem, List.getD_eq_getElem _ _ hi,
      List.getD_eq_getElem _ _ hj]
  · intro a b _ _ _ h
    simp only [decide_eq_true_eq, decide_eq_false_iff_not] at h ⊢
    omega
  · intro a b c _ _ _ h1 h2
    simp only [decide_eq_true_eq] at h1 h2 ⊢
    omega
  · intro a b c _ _ _ h1 h2
    simp only [decide_eq_false_iff_not] at h1 h2 ⊢
    omega

theorem intLess_negated_requirements (s : List Int) :
    LessRequirements (fun cur i j => !(intLess cur i j)) s := by
  refine ⟨fun a b => !(decide (a < b)), ?_, ?_, ?_, ?_⟩
  · intro cur i j hi hj
    simp only [intLess, List.get_eq_getElem, List.getD_eq_getElem _ _ hi,
      List.getD_eq_getElem _ _ hj]
  · intro a b _ _ hab h
    simp only [Bool.not_eq_true', Bool.not_eq_false', decide_eq_true_eq,
      decide_eq_false_iff_not] at h ⊢
    omega
  · intro a b c _ _ _ h1 h2
    simp only [Bool.not_eq_true', decide_eq_false_iff_not] at h1 h2 ⊢
    omega
  · intro a b c _ _ _ h1 h2
    simp only [Bool.not_eq_false', decide_eq_true_eq] at h1 h2 ⊢
    omega

/-- C10: with a `sort.Slice` that behaves as documented, for every slice s of
pairwise distinct integers and the comparator less(i, j) = s[i] < s[j],
SortSlice(s, less) leaves s a permutation of its input, in (strictly) ascending
order when IsSortDesc() is false and in (strictly) descending order when it is
true; so it leaves the one ascending, respectively descending, arrangement of
the input. -/
theorem sortSlice_sorted (sortSlice : SliceSorter Int) (hsort : SortsSlices sortSlice)
    (fo : FilterOption) (s : List Int) (hnd : s.Nodup) :
    (SortSlice sortSlice fo s intLess).Perm s ∧
    (IsSortDesc fo = false →
      (SortSlice sortSlice fo s intLess).Sorted (fun a b => a < b) ∧
      SortSlice sortSlice fo s intLess = s.insertionSort (fun a b => a ≤ b)) ∧
    (IsSortDesc fo = true →
      (SortSlice sortSlice fo s intLess).Sorted (fun a b => a > b) ∧
      SortSlice sortSlice fo s intLess = s.insertionSort (fun a b => a ≥ b)) := by
  cases hd : fo.desc with
  | false =>
    obtain ⟨hperm, hord⟩ := hsort (fun cur i j => intLess cur i j) s hnd (intLess_requirements s)
    have hS : SortSlice sortSlice fo s intLess = sortSlice (fun cur i j => intLess cur i j) s := by
      simp [SortSlice, hd]
    rw [hS]
    generalize sortSlice (fun cur i j => intLess cur i j) s = r at hperm hord
    have hlt : r.Pairwise (fun a b => a < b) := by
      have hne : r.Pairwise (fun a b => a ≠ b) := hperm.nodup_iff.2 hnd
      have hle : r.Pairwise (fun a b => a ≤ b) := by
        rw [List.pairwise_iff_getElem]
        intro i j hi hj hij
        have h := hord i j hij hj
        simp only [intLess, List.getD_eq_getElem _ _ hi, List.getD_eq_getElem _ _ hj,
          decide_eq_false_iff_not] at h
        omega
      exact (hle.and hne).imp (fun h => lt_of_le_of_ne h.1 h.2)
    refine ⟨hperm, fun _ => ⟨hlt, ?_⟩, fun h => ?_⟩
    · have hle : r.Sorted (fun a b => a ≤ b) := hlt.imp (fun h => le_of_lt h)
      exact List.eq_of_perm_of_sorted (hperm.trans (List.perm_insertionSort _ s).symm) hle
        (List.sorted_insertionSort _ s)
    · simp [IsSortDesc, hd] at h
  | true =>
    obtain ⟨hperm, hord⟩ :=
      hsort (fun cur i j => !(intLess cur i j)) s hnd (intLess_negated_requirements s)
    have hS : SortSlice sortSlice fo s intLess =
        sortSlice (fun cur i j => !(intLess cur i j)) s := by
      simp [SortSlice, hd]
    rw [hS]
    generalize sortSlice (fun cur i j => !(intLess cur i j)) s = r at hperm hord
    have hgt : r.Pairwise (fun a b => a > b) := by
      rw [List.pairwise_iff_getElem]
      intro i j hi hj hij
      have h := hord i j hij hj
      simp only [intLess, List.getD_eq_getElem _ _ hi, List.getD_eq_getElem _ _ hj,
        Bool.not_eq_false', decide_eq_true_eq] at h
      omega
    refine ⟨hperm, fun h => ?_, fun _ => ⟨hgt, ?_⟩⟩
    · simp [IsSortDesc, hd] at h
    · have hge : r.Sorted (fun a b => a ≥ b) := hgt.imp (fun h => le_of_lt h)
      exact List.eq_of_perm_of_sorted (hperm.trans (List.perm_insertionSort _ s).symm) hge
        (List.sorted_insertionSort _ s)

/-- C10 witness: Go's insertion sort as `sort.Slice` on [3, 1, 2], which
becomes [1, 2, 3] without and [3, 2, 1] with the descending flag. -/
theorem sortSlice_sorted_witness :
    (SortsSlices (insertionSort_func : SliceSorter Int) ∧ ([3, 1, 2] : List Int).Nodup) ∧
    SortSlice insertionSort_func { desc := false } [3, 1, 2] intLess = [1, 2, 3] ∧
    SortSlice insertionSort_func { desc := true } [3, 1, 2] intLess = [3, 2, 1] :=
  ⟨⟨insertionSort_func_sorts, by decide⟩,
   ((sortSlice_sorted insertionSort_func insertionSort_func_sorts { desc := false } [3, 1, 2]
      (by decide)).2.1 rfl).2.trans (by decide),
   ((sortSlice_sorted insertionSort_func insertionSort_func_sorts { desc := true } [3, 1, 2]
      (by decide)).2.2 rfl).2.trans (by decide)⟩


/-! ## More about `ApplyDefaults` -/

/-- The fields `ApplyDefaults` never assigns. -/
theorem applyDefaults_frame (dps : Int) (fo : FilterOption) :
    (ApplyDefaults dps fo).Show = fo.Show ∧ (ApplyDefaults dps fo).Download = fo.Download ∧
    (ApplyDefaults dps fo).Lang = fo.Lang ∧ (ApplyDefaults dps fo).ids = fo.ids ∧
    (ApplyDefaults dps fo).total = fo.total := by
  unfold ApplyDefaults
  dsimp only
  split_ifs <;> simp

/-- After `ApplyDefaults` the exported and the unexported sort field agree. -/
theorem applyDefaults_sortBy_eq (dps : Int) (fo : FilterOption) :
    (ApplyDefaults dps fo).SortBy = (ApplyDefaults dps fo).sortBy := by
  unfold ApplyDefaults
  dsimp only
  split_ifs <;> simp

theorem encoderune_ne_nil (r : Nat) : encoderune r ≠ [] := by
  unfold encoderune
  split_ifs <;> simp

theorem encoderune_head_minus (r : Nat) : (encoderune r).head? = some 0x2D ↔ r = 0x2D := by
  unfold encoderune
  split_ifs with c1 c2 c3 c4
  · simp only [List.head?_cons, Option.some.injEq]
    constructor
    · intro h
      have := congrArg Fin.val h
      rw [fin_ofNat_val r (by omega)] at this
      exact this
    · intro h; rw [h]; rfl
  · simp only [List.head?_cons, Option.some.injEq]
    constructor
    · intro h
      have := congrArg Fin.val h
      rw [fin_ofNat_val _ (by omega)] at this
      simp at this
      omega
    · intro h; omega
  · simp only [List.head?_cons, Option.some.injEq]
    constructor
    · intro h; exact absurd h (by decide)
    · intro h; omega
  · simp only [List.head?_cons, Option.some.injEq]
    constructor
    · intro h
      have := congrArg Fin.val h
      rw [fin_ofNat_val _ (by omega)] at this
      simp at this
      omega
    · intro h; omega
  · simp only [List.head?_cons, Option.some.injEq]
    constructor
    · intro h
      have := congrArg Fin.val h
      rw [fin_ofNat_val _ (by omega)] at this
      simp at this
      omega
    · intro h; omega

theorem slicerunetostring_head_minus (rs : List Nat) :
    (slicerunetostring rs).head? = some 0x2D ↔ rs.head? = some 0x2D := by
  cases rs with
  | nil => simp [slicerunetostring]
  | cons r rs =>
    rw [slicerunetostring_cons, List.head?_append_of_ne_nil _ (encoderune_ne_nil r),
      encoderune_head_minus]
    simp

/-- Stripping through runes keeps a leading `-` of the rest a leading `-`, and
introduces none. -/
theorem stripped_head_minus (t : GoString) :
    (slicerunetostring (stringtoslicerune t)).head? = some 0x2D ↔ t.head? = some 0x2D := by
  rw [slicerunetostring_head_minus, head_stringtoslicerune]

theorem stripped_eq_nil (t : GoString) :
    slicerunetostring (stringtoslicerune t) = [] ↔ t = [] := by
  cases t with
  | nil => simp [stringtoslicerune, stringtosliceruneAux, slicerunetostring]
  | cons b rest =>
    simp only [stringtoslicerune, stringtosliceruneAux, reduceCtorEq, iff_false]
    split_ifs
    · rw [slicerunetostring_cons]
      intro h
      exact encoderune_ne_nil _ (List.append_eq_nil.1 h).1
    · rw [slicerunetostring_cons]
      intro h
      exact encoderune_ne_nil _ (List.append_eq_nil.1 h).1


/-- The unexported sort field begins with `-` after `ApplyDefaults` exactly when
`SortBy` began with two of them. -/
theorem sortAttr_head_minus_aux (dps : Int) (fo : FilterOption) :
    (ApplyDefaults dps fo).sortBy.head? = some 0x2D ↔ ∃ t, fo.SortBy = 0x2D :: 0x2D :: t := by
  by_cases hh : fo.SortBy.head? = some 0x2D
  · obtain ⟨t, ht⟩ : ∃ t, fo.SortBy = 0x2D :: t := by
      cases hs : fo.SortBy with
      | nil => rw [hs] at hh; simp at hh
      | cons b t =>
        rw [hs] at hh
        simp only [List.head?_cons, Option.some.injEq] at hh
        exact ⟨t, by rw [hh]⟩
    rw [(applyDefaults_minus dps fo t ht).2.1, stripped_head_minus, ht]
    constructor
    · intro h
      cases t with
      | nil => simp at h
      | cons c u =>
        simp only [List.head?_cons, Option.some.injEq] at h
        exact ⟨u, by rw [h]⟩
    · rintro ⟨u, hu⟩
      simp only [List.cons.injEq, true_and] at hu
      rw [hu]; rfl
  · rw [(applyDefaults_plain dps fo hh).2.1]
    constructor
    · intro h; exact absurd h hh
    · rintro ⟨u, hu⟩
      rw [hu] at hh
      exact absurd rfl hh

/-! ## Claims about the accumulated ids -/

theorem ids_foldl_add (xs : List Int) (fo : FilterOption) :
    (xs.foldl Add fo).ids = fo.ids ++ xs := by
  induction xs generalizing fo with
  | nil => simp
  | cons x xs ih => rw [List.foldl_cons, ih]; simp [Add]

/-- C11: after Add(id) the sequence IDs() is the previous IDs() with id appended
at the end and Len() is the previous Len() plus one; from a zero-value
FilterOption the calls Add(x1)..Add(xn) give Len() = n and
IDs() = [x1, ..., xn] in call order, duplicates kept. -/
theorem add_appends (fo : FilterOption) (id : Int) (xs : List Int) :
    IDs (Add fo id) = IDs fo ++ [id] ∧ Len (Add fo id) = Len fo + 1 ∧
    IDs (xs.foldl Add {}) = xs ∧ Len (xs.foldl Add {}) = xs.length := by
  refine ⟨rfl, ?_, ?_, ?_⟩
  · simp [Len, Add]
  · simp [IDs, ids_foldl_add]
  · simp [Len, ids_foldl_add]

/-- C18: the accumulated ID list only grows: for every state and every public
operation, IDs() before the operation is an initial segment of IDs() after it,
and every operation other than Add leaves IDs() and Len() unchanged. -/
theorem ids_only_grow (op : Op) (fo : FilterOption) :
    (∃ t, IDs (op.after fo) = IDs fo ++ t) ∧
    ((∀ id, op ≠ Op.add id) → IDs (op.after fo) = IDs fo ∧ Len (op.after fo) = Len fo) := by
  cases op with
  | add id => exact ⟨⟨[id], rfl⟩, fun h => absurd rfl (h id)⟩
  | applyDefaults dps =>
    have h := (applyDefaults_frame dps fo).2.2.2.1
    exact ⟨⟨[], by simp [Op.after, IDs, h]⟩, fun _ => ⟨by simp [Op.after, IDs, h],
      by simp [Op.after, Len, h]⟩⟩
  | setLang lang => exact ⟨⟨[], by simp [Op.after, IDs, SetLang]⟩, fun _ => ⟨rfl, rfl⟩⟩
  | len => exact ⟨⟨[], by simp [Op.after]⟩, fun _ => ⟨rfl, rfl⟩⟩
  | ids => exact ⟨⟨[], by simp [Op.after]⟩, fun _ => ⟨rfl, rfl⟩⟩
  | pageRange => exact ⟨⟨[], by simp [Op.after]⟩, fun _ => ⟨rfl, rfl⟩⟩
  | calcRange n => exact ⟨⟨[], by simp [Op.after]⟩, fun _ => ⟨rfl, rfl⟩⟩
  | isIgnoredRow b => exact ⟨⟨[], by simp [Op.after]⟩, fun _ => ⟨rfl, rfl⟩⟩
  | isSortRequired => exact ⟨⟨[], by simp [Op.after]⟩, fun _ => ⟨rfl, rfl⟩⟩
  | sortAttr => exact ⟨⟨[], by simp [Op.after]⟩, fun _ => ⟨rfl, rfl⟩⟩
  | isSortDesc => exact ⟨⟨[], by simp [Op.after]⟩, fun _ => ⟨rfl, rfl⟩⟩

/-! ## Claims about the parsed sort field -/

/-- C12 (as stated, refuted): with SortBy = "--x" the sort field after
ApplyDefaults is "-x", which begins with `-`. -/
theorem sortAttr_keeps_second_minus :
    SortAttr (ApplyDefaults DefaultPageSize { SortBy := [0x2D, 0x2D, 120] }) = [0x2D, 120] ∧
    (SortAttr (ApplyDefaults DefaultPageSize { SortBy := [0x2D, 0x2D, 120] })).head? =
      some 0x2D := by
  decide

/-- C12 (amended): ApplyDefaults strips one leading `-` only: after it,
SortAttr() begins with `-` exactly when the input SortBy began with two of
them; for every other SortBy, SortAttr() does not begin with `-`. -/
theorem sortAttr_head_minus_iff (dps : Int) (fo : FilterOption) :
    (SortAttr (ApplyDefaults dps fo)).head? = some 0x2D ↔
      ∃ t, fo.SortBy = 0x2D :: 0x2D :: t := by
  exact sortAttr_head_minus_aux dps fo

/-- C14 (as stated, refuted): a freshly constructed FilterOption with the
non-empty SortBy = "-" has IsSortRequired() false after ApplyDefaults. -/
theorem isSortRequired_bare_minus :
    ({ SortBy := [0x2D] } : FilterOption).SortBy ≠ [] ∧
    IsSortRequired (ApplyDefaults DefaultPageSize { SortBy := [0x2D] }) = false := by
  decide

/-- C14 (amended): after ApplyDefaults, IsSortRequired() is true exactly when
the input SortBy names a field: it is non-empty and is not the bare "-". -/
theorem isSortRequired_iff (dps : Int) (fo : FilterOption) :
    IsSortRequired (ApplyDefaults dps fo) = true ↔ fo.SortBy ≠ [] ∧ fo.SortBy ≠ [0x2D] := by
  unfold IsSortRequired
  rw [decide_eq_true_eq]
  by_cases hh : fo.SortBy.head? = some 0x2D
  · obtain ⟨t, ht⟩ : ∃ t, fo.SortBy = 0x2D :: t := by
      cases hs : fo.SortBy with
      | nil => rw [hs] at hh; simp at hh
      | cons b t =>
        rw [hs] at hh
        simp only [List.head?_cons, Option.some.injEq] at hh
        exact ⟨t, by rw [hh]⟩
    rw [(applyDefaults_minus dps fo t ht).2.1, ht, Ne, stripped_eq_nil]
    simp
  · rw [(applyDefaults_plain dps fo hh).2.1]
    constructor
    · intro h
      refine ⟨h, fun h2 => ?_⟩
      rw [h2] at hh
      exact hh rfl
    · intro h; exact h.1

/-- C16 (as stated, refuted): a FilterOption normalized with SortBy = "-name"
and then given SortBy = "age" has a SortBy that does not begin with `-`, yet
after ApplyDefaults IsSortDesc() is still true. -/
theorem isSortDesc_survives_reassignment :
    ({ ApplyDefaults DefaultPageSize { SortBy := [0x2D, 110, 97, 109, 101] } with
        SortBy := [97, 103, 101] } : FilterOption).SortBy.head? ≠ some 0x2D ∧
    IsSortDesc (ApplyDefaults DefaultPageSize
      { ApplyDefaults DefaultPageSize { SortBy := [0x2D, 110, 97, 109, 101] } with
        SortBy := [97, 103, 101] }) = true := by
  decide

/-- C16 (amended): for a FilterOption in any state whose SortBy is empty or does
not begin with `-`, after ApplyDefaults SortAttr() equals SortBy and
IsSortDesc() has the value it had before the call; so IsSortDesc() is false
when the flag was false before, as in a FilterOption never normalized. -/
theorem applyDefaults_no_minus (dps : Int) (fo : FilterOption)
    (h : fo.SortBy.head? ≠ some 0x2D) :
    SortAttr (ApplyDefaults dps fo) = fo.SortBy ∧
    IsSortDesc (ApplyDefaults dps fo) = IsSortDesc fo ∧
    (IsSortDesc fo = false → IsSortDesc (ApplyDefaults dps fo) = false) := by
  obtain ⟨h1, h2, _⟩ := applyDefaults_plain dps fo h
  exact ⟨h2, h1, fun hd => h1.trans hd⟩

/-- C16 witness: the fresh FilterOption with SortBy = "age". -/
theorem applyDefaults_no_minus_witness :
    SortAttr (ApplyDefaults 10 { SortBy := [97, 103, 101] }) = [97, 103, 101] ∧
    IsSortDesc (ApplyDefaults 10 { SortBy := [97, 103, 101] }) = false :=
  ⟨(applyDefaults_no_minus 10 { SortBy := [97, 103, 101] } (by decide)).1,
   (applyDefaults_no_minus 10 { SortBy := [97, 103, 101] } (by decide)).2.2 rfl⟩

/-- C17: after ApplyDefaults the public SortBy field equals SortAttr(): when
SortBy began with `-` it holds the field name stripped of it (the re-encoded
runes of the rest, which is the rest itself when that is valid UTF-8), and
otherwise it is unchanged. -/
theorem sortBy_reflects_sortAttr (dps : Int) (fo : FilterOption) :
    (ApplyDefaults dps fo).SortBy = SortAttr (ApplyDefaults dps fo) ∧
    (∀ t, fo.SortBy = 0x2D :: t →
      (ApplyDefaults dps fo).SortBy = slicerunetostring (stringtoslicerune t) ∧
      (validString t = true → (ApplyDefaults dps fo).SortBy = t)) ∧
    (fo.SortBy.head? ≠ some 0x2D → (ApplyDefaults dps fo).SortBy = fo.SortBy) := by
  refine ⟨applyDefaults_sortBy_eq dps fo, fun t ht => ?_, fun h => (applyDefaults_plain dps fo h).2.2⟩
  have h3 := (applyDefaults_minus dps fo t ht).2.2
  exact ⟨h3, fun hv => h3.trans (slicerunetostring_stringtoslicerune_of_valid t hv)⟩

/-- C17 witness: the inputs "-name" and "name". -/
theorem sortBy_reflects_sortAttr_witness :
    (ApplyDefaults 10 { SortBy := [0x2D, 110, 97, 109, 101] }).SortBy = [110, 97, 109, 101] ∧
    (ApplyDefaults 10 { SortBy := [110, 97, 109, 101] }).SortBy = [110, 97, 109, 101] :=
  ⟨((sortBy_reflects_sortAttr 10 { SortBy := [0x2D, 110, 97, 109, 101] }).2.1
      [110, 97, 109, 101] rfl).2 (by decide),
   (sortBy_reflects_sortAttr 10 { SortBy := [110, 97, 109, 101] }).2.2 (by decide)⟩


/-- C15: for PageSize > 0 and a length full >= 0, whenever the start offset
PageNumber*PageSize lies outside [0, full] (negative, or past the end) and the
arithmetic is exact (PageSize is an int and the product does not overflow),
CalcRange(full) returns the first page (0, min(PageSize, full)) rather than an
empty range at the end. -/
theorem calcRange_outside_first_page (fo : FilterOption) (full : Int)
    (hps : 0 < fo.PageSize) (hfull : 0 ≤ full)
    (hsize : fo.PageSize ≤ maxInt) (hprod : IsInt (fo.PageNumber * fo.PageSize))
    (hout : fo.PageNumber * fo.PageSize < 0 ∨ full < fo.PageNumber * fo.PageSize) :
    CalcRange fo full = (0, min fo.PageSize full) := by
  simp only [IsInt, minInt, maxInt] at hsize hprod
  unfold CalcRange sliceRange wrapInt
  generalize fo.PageNumber * fo.PageSize = m at hprod hout ⊢
  dsimp only
  rw [Int.min_def]
  split_ifs <;> (try simp only [Prod.mk.injEq, and_true, true_and]) <;> omega

/-- C15 witness: page 2 of 15 rows by 10 (past the end) gives (0, 10), and page
-3 of 4 rows by 10 gives (0, 4). -/
theorem calcRange_outside_first_page_witness :
    CalcRange { PageNumber := 2, PageSize := 10 } 15 = (0, min 10 15) ∧
    CalcRange { PageNumber := -3, PageSize := 10 } 4 = (0, min 10 4) :=
  ⟨calcRange_outside_first_page { PageNumber := 2, PageSize := 10 } 15 (by decide) (by decide)
      (by decide) (by decide) (by decide),
   calcRange_outside_first_page { PageNumber := -3, PageSize := 10 } 4 (by decide) (by decide)
      (by decide) (by decide) (by decide)⟩

/-- C19: for PageSize > 0, every PageNumber and every length full (an int, so
at most MaxInt64), whether or not the arithmetic wraps, the range returned by
CalcRange(full) never spans more than one page: to - from <= PageSize, with
equality exactly when from + PageSize <= full. -/
theorem calcRange_span (fo : FilterOption) (full : Int) (hps : 0 < fo.PageSize)
    (hfull : full ≤ maxInt) :
    (CalcRange fo full).2 - (CalcRange fo full).1 ≤ fo.PageSize ∧
    ((CalcRange fo full).2 - (CalcRange fo full).1 = fo.PageSize ↔
      (CalcRange fo full).1 + fo.PageSize ≤ full) := by
  simp only [maxInt] at hfull
  unfold CalcRange sliceRange wrapInt
  generalize fo.PageNumber * fo.PageSize = m
  dsimp only
  split_ifs <;> simp only [] <;> omega

/-- C19 witness: the last, short page of 25 rows by 10 spans 5 rows; a full
page spans 10. -/
theorem calcRange_span_witness :
    ((CalcRange { PageNumber := 2, PageSize := 10 } 25).2 -
        (CalcRange { PageNumber := 2, PageSize := 10 } 25).1 ≤ 10 ∧
      ((CalcRange { PageNumber := 2, PageSize := 10 } 25).2 -
        (CalcRange { PageNumber := 2, PageSize := 10 } 25).1 = 10 ↔
        (CalcRange { PageNumber := 2, PageSize := 10 } 25).1 + 10 ≤ 25)) ∧
    CalcRange { PageNumber := 2, PageSize := 10 } 25 = (20, 25) :=
  ⟨calcRange_span { PageNumber := 2, PageSize := 10 } 25 (by decide) (by decide), by decide⟩

/-! ## Claim about the frame of `ApplyDefaults` -/

/-- C20: ApplyDefaults leaves Show, Download, Lang and the accumulated IDs
unchanged; when Download is false and PageSize is non-zero it leaves
PageNumber and PageSize unchanged, so a negative PageSize is kept and makes
CalcRange return the unpaginated (0, full). -/
theorem applyDefaults_touches_only (dps : Int) (fo : FilterOption) :
    ((ApplyDefaults dps fo).Show = fo.Show ∧ (ApplyDefaults dps fo).Download = fo.Download ∧
      (ApplyDefaults dps fo).Lang = fo.Lang ∧ IDs (ApplyDefaults dps fo) = IDs fo) ∧
    (fo.Download = false → fo.PageSize ≠ 0 →
      (ApplyDefaults dps fo).PageNumber = fo.PageNumber ∧
      (ApplyDefaults dps fo).PageSize = fo.PageSize) ∧
    (fo.Download = false → fo.PageSize < 0 →
      ∀ full, CalcRange (ApplyDefaults dps fo) full = (0, full)) := by
  obtain ⟨f1, f2, f3, f4, _⟩ := applyDefaults_frame dps fo
  obtain ⟨p1, p2⟩ := applyDefaults_paging dps fo
  refine ⟨⟨f1, f2, f3, f4⟩, fun hd hp => ?_, fun hd hp full => ?_⟩
  · rw [p1, p2, hd]
    simp [hp]
  · have hne : fo.PageSize ≠ 0 := by omega
    have hps : (ApplyDefaults dps fo).PageSize = fo.PageSize := by
      rw [p2, hd]; simp [hne]
    unfold CalcRange sliceRange
    rw [if_pos (by rw [hps]; omega)]

/-- C20 witness: a request with PageNumber = 3 and PageSize = -4. -/
theorem applyDefaults_touches_only_witness :
    ((ApplyDefaults 10 { PageNumber := 3, PageSize := -4, Show := ShowAll }).PageNumber = 3 ∧
      (ApplyDefaults 10 { PageNumber := 3, PageSize := -4, Show := ShowAll }).PageSize = -4) ∧
    CalcRange (ApplyDefaults 10 { PageNumber := 3, PageSize := -4, Show := ShowAll }) 50 =
      (0, 50) :=
  ⟨(applyDefaults_touches_only 10 { PageNumber := 3, PageSize := -4, Show := ShowAll }).2.1 rfl
      (by decide),
   (applyDefaults_touches_only 10 { PageNumber := 3, PageSize := -4, Show := ShowAll }).2.2 rfl
      (by decide) 50⟩

end filteroption
